import Mathlib

/-!
# Verification of the Cyberpunk 2077 "Breach Protocol" minigame solver

A shallow embedding of `src/cp2077solver/solver.py` together with proofs of the
specification claims about it.

Modelling conventions:
* Python `str` cell values become `String` (compared by equality only).
* Python `int` becomes `Int` where subtraction/negativity matters (`buffer_size`,
  `priority`) and `Nat` for the always-nonnegative quantities (indices,
  `incomplete_sequence_length` entries, which stay within `[0, len]`).
* The `SearchStackItem.steps` dictionary maps a `SolutionStep` to its 0-based
  insertion index and is only ever (a) tested for key membership, (b) measured
  with `len`, and (c) read back sorted by index (which, since indices are
  assigned `0, 1, 2, ...` in insertion order, is exactly insertion order).
  It is therefore embedded as the insertion-ordered list of its keys.
* The DFS `deque` (append right / pop right) is embedded as a list whose head
  is the top of the stack: pushing the Python-ordered batch `[c₀, …, cₖ]` one
  element at a time yields `cₖ :: … :: c₀ :: rest`, i.e. `batch.reverse ++ rest`.
* Python's `sorted` (Timsort) is a stable sort; it is embedded as
  `List.insertionSort`, which is also stable, with the same key comparison.
* The loop and the relaxation recursion are given explicit fuel, chosen large
  enough that it is never exhausted on the executions a claim talks about
  (the Python loop terminates: paths are bounded by the buffer, and
  relaxation strictly shrinks the sequence list).
* Partial Python operations (out-of-range list indexing) are totalised with
  `getD`; every such access is guarded by an invariant keeping it in bounds
  wherever the Python code reaches it.
-/

/-- Python `CellValueType = str`. -/
abbrev CellValueType := String

/-- `CodeMatrix` from `solver.py`: a plain frozen dataclass holding the cells in
row-first order.  The source performs no validation whatsoever at construction. -/
structure CodeMatrix where
  cells : List (List CellValueType)
deriving DecidableEq, Repr

/-- `CodeMatrix.size`: the number of rows. -/
def CodeMatrix.size (m : CodeMatrix) : Nat := m.cells.length

/-- `CodeMatrix.iterate_row`: `enumerate(self.cells[row_idx])`. -/
def CodeMatrix.iterateRow (m : CodeMatrix) (rowIdx : Nat) : List (Nat × CellValueType) :=
  (m.cells.getD rowIdx []).enum

/-- `CodeMatrix.iterate_col`: `enumerate(row[col_idx] for row in self.cells)`. -/
def CodeMatrix.iterateCol (m : CodeMatrix) (colIdx : Nat) : List (Nat × CellValueType) :=
  (m.cells.map (fun row => row.getD colIdx "")).enum

/-- `UploadSequence` from `solver.py`. -/
structure UploadSequence where
  cells : List CellValueType
  priority : Int
deriving DecidableEq, Repr

/-- `GameSpecification` from `solver.py`. -/
structure GameSpecification where
  code_matrix : CodeMatrix
  upload_sequences : List UploadSequence
  buffer_size : Int
deriving DecidableEq, Repr

/-- `SolutionStep` from `solver.py`: a (value, row, column) triple. -/
structure SolutionStep where
  value : CellValueType
  row_idx : Nat
  col_idx : Nat
deriving DecidableEq, Repr

/-- Default used to totalise list indexing over steps. -/
def defaultStep : SolutionStep := ⟨"", 0, 0⟩

/-- `Solution` from `solver.py`. -/
structure Solution where
  steps : List SolutionStep
deriving DecidableEq, Repr

/-- Default used to totalise list indexing over solutions. -/
def defaultSolution : Solution := ⟨[]⟩

/-- Default used to totalise list indexing over upload sequences. -/
def defaultSequence : UploadSequence := ⟨[], 0⟩

/-- `SolutionStrategy` from `solver.py`. -/
inductive SolutionStrategy where
  | FIND_FIRST_SOLUTION
  | FIND_ALL_SOLUTIONS
deriving DecidableEq, Repr

/-- `CellChoiceDirection` from `solver.py`. -/
inductive CellChoiceDirection where
  | ROW
  | COLUMN
deriving DecidableEq, Repr

/-- `SearchStackItem` from `solver.py`.  The `steps` dict (key = step,
value = insertion index) is embedded as the insertion-ordered key list. -/
structure SearchStackItem where
  steps : List SolutionStep
  current_step : SolutionStep
  incomplete_sequence_length : List Nat
  next_pick_direction : CellChoiceDirection
deriving DecidableEq, Repr

/-- The values appended to the input buffer by the steps of a state, in path order. -/
def pathValues (it : SearchStackItem) : List CellValueType :=
  it.steps.map (·.value)

/-- One seed state of the search stack (`solver.py` lines 142–155): a start at
cell `(0, colIdx)` holding `cellValue`.  The seed `remaining` entry is
`len(seq) - (1 if seq[0] == value else 0)`; `seq[0]` is totalised with `getD`
(Python would raise `IndexError` on an empty sequence). -/
def seedItem (spec : GameSpecification) (colIdx : Nat) (cellValue : CellValueType) :
    SearchStackItem :=
  { steps := [⟨cellValue, 0, colIdx⟩]
    current_step := ⟨cellValue, 0, colIdx⟩
    incomplete_sequence_length :=
      spec.upload_sequences.map
        (fun u => u.cells.length - (if u.cells.getD 0 "" = cellValue then 1 else 0))
    next_pick_direction := CellChoiceDirection.COLUMN }

/-- The initial search stack: one seed per cell of row 0, pushed left to right,
so the rightmost column ends up on top (head) of the stack. -/
def initialStack (spec : GameSpecification) : List SearchStackItem :=
  ((spec.code_matrix.iterateRow 0).map (fun p => seedItem spec p.1 p.2)).reverse

/-- Direction alternation: ROW picks flip to COLUMN and vice versa
(`solver.py` lines 192 and 200). -/
def flipDir : CellChoiceDirection → CellChoiceDirection
  | CellChoiceDirection.ROW => CellChoiceDirection.COLUMN
  | CellChoiceDirection.COLUMN => CellChoiceDirection.ROW

/-- The candidate next steps of a state (`solver.py` lines 185–200): the cells
of the current row (resp. column) other than the current cell itself. -/
def nextStepsOf (spec : GameSpecification) (it : SearchStackItem) : List SolutionStep :=
  match it.next_pick_direction with
  | CellChoiceDirection.ROW =>
      ((spec.code_matrix.iterateRow it.current_step.row_idx).filter
          (fun p => decide (p.1 ≠ it.current_step.col_idx))).map
        (fun p => ⟨p.2, it.current_step.row_idx, p.1⟩)
  | CellChoiceDirection.COLUMN =>
      ((spec.code_matrix.iterateCol it.current_step.col_idx).filter
          (fun p => decide (p.1 ≠ it.current_step.row_idx))).map
        (fun p => ⟨p.2, p.1, it.current_step.col_idx⟩)

/-- The per-sequence progress update (`solver.py` lines 212–231): completed
sequences stay completed; a match consumes one cell; a mismatch resets the
counter to the full sequence length.  `seq[-r] = seq[len - r]` is totalised
with `getD` (always in bounds for `0 < r ≤ len`, which the invariant supplies). -/
def updatedRemaining (seqs : List UploadSequence) (remaining : List Nat)
    (v : CellValueType) : List Nat :=
  (seqs.zip remaining).map
    (fun p =>
      if p.2 = 0 then 0
      else if p.1.cells.getD (p.1.cells.length - p.2) "" = v then p.2 - 1
      else p.1.cells.length)

/-- The child state built for one surviving candidate (`solver.py` lines 209–233). -/
def childItem (spec : GameSpecification) (it : SearchStackItem) (next : SolutionStep) :
    SearchStackItem :=
  { steps := it.steps ++ [next]
    current_step := next
    incomplete_sequence_length :=
      updatedRemaining spec.upload_sequences it.incomplete_sequence_length next.value
    next_pick_direction := flipDir it.next_pick_direction }

/-- All children pushed for one expanded state (`solver.py` lines 203–234):
candidates already present in the step mapping are discarded. -/
def childrenOf (spec : GameSpecification) (it : SearchStackItem) : List SearchStackItem :=
  ((nextStepsOf spec it).filter (fun s => decide (s ∉ it.steps))).map
    (fun s => childItem spec it s)

/-- Python's `max` over the (always nonempty where evaluated) remaining list;
`0` is the identity of `max` on `Nat`, so the fold agrees with Python's `max`
on every nonempty list. -/
def maxRemaining (l : List Nat) : Nat := l.foldr max 0

/-- Length-keyed comparison used by the final `sorted(solutions, key=len(steps))`. -/
def solutionLenLE (a b : Solution) : Prop := a.steps.length ≤ b.steps.length

instance : DecidableRel solutionLenLE := fun a b => Nat.decLe _ _

instance : IsTotal Solution solutionLenLE := ⟨fun a b => Nat.le_total _ _⟩

instance : IsTrans Solution solutionLenLE := ⟨fun _ _ _ => Nat.le_trans⟩

/-- Python's `sorted(solutions, key=lambda sol: len(sol.steps))`: a stable sort
by path length, embedded as the (also stable) insertion sort. -/
def sortSolutionsByLength (l : List Solution) : List Solution :=
  l.insertionSort solutionLenLE

/-- The DFS loop of `_solve_internal` (`solver.py` lines 157–234), with explicit
fuel.  Head of the list = top of the stack.  On fuel exhaustion the solutions
collected so far are returned (never reached with the fuel used below). -/
def solveLoop (spec : GameSpecification) (strategy : SolutionStrategy) :
    Nat → List SearchStackItem → List Solution → List Solution
  | 0, _, solutions => solutions
  | _ + 1, [], solutions => solutions
  | fuel + 1, it :: stack, solutions =>
    if it.incomplete_sequence_length.sum = 0 then
      -- Acceptance: materialise the solution; stop for FIND_FIRST_SOLUTION.
      let solutions' := solutions ++ [⟨it.steps⟩]
      if strategy = SolutionStrategy.FIND_FIRST_SOLUTION then solutions'
      else solveLoop spec strategy fuel stack solutions'
    else if (spec.buffer_size - it.steps.length : Int) <
        (maxRemaining it.incomplete_sequence_length : Int) then
      -- Pruning: not enough buffer left to finish every sequence.
      solveLoop spec strategy fuel stack solutions
    else
      solveLoop spec strategy fuel ((childrenOf spec it).reverse ++ stack) solutions

/-- Fuel for the DFS loop; any bound at least the true number of loop
iterations works, and every theorem about returned solutions below holds for
every fuel value. -/
def fuelFor (spec : GameSpecification) : Nat :=
  (spec.code_matrix.size + 1) ^ (spec.buffer_size.toNat + 2)

/-- The solutions collected by one DFS run of `_solve_internal`, in discovery
order: the loop's `solutions` accumulator as it stands when the loop ends,
before the final sort. -/
def discoveredSolutions (spec : GameSpecification) (strategy : SolutionStrategy) :
    List Solution :=
  solveLoop spec strategy (fuelFor spec) (initialStack spec) []

/-- `_solve_internal` from `solver.py`: run the DFS from the row-0 seeds and
return the collected solutions sorted (stably) by path length. -/
def solveInternal (spec : GameSpecification) (strategy : SolutionStrategy) :
    List Solution :=
  sortSolutionsByLength (discoveredSolutions spec strategy)

/-- `sorted(list(set(sequence.priority for sequence in ...)))`: the distinct
priorities in ascending order. -/
def uniquePriorities (seqs : List UploadSequence) : List Int :=
  ((seqs.map (·.priority)).dedup).insertionSort (· ≤ ·)

/-- The relaxed specification built by `solve` when no solution exists: keep
only the sequences whose priority exceeds the minimum present
(`solver.py` lines 280–285). -/
def relaxedSpec (spec : GameSpecification) : GameSpecification :=
  { spec with
    upload_sequences :=
      spec.upload_sequences.filter
        (fun s => decide ((uniquePriorities spec.upload_sequences).headD 0 < s.priority)) }

/-- The recursion of `solve` (`solver.py` lines 263–288) with explicit fuel;
each relaxation strictly shrinks `upload_sequences`, so
`upload_sequences.length + 1` fuel always suffices. -/
def solveAux (strategy : SolutionStrategy) : Nat → GameSpecification → List Solution
  | 0, _ => []
  | fuel + 1, spec =>
    let solutions := solveInternal spec strategy
    if solutions.isEmpty then
      if 1 < (uniquePriorities spec.upload_sequences).length then
        solveAux strategy fuel (relaxedSpec spec)
      else solutions
    else solutions

/-- `solve` from `solver.py`: try the full sequence set, then relax
priority tier by priority tier while no solution exists. -/
def solve (spec : GameSpecification) (strategy : SolutionStrategy) : List Solution :=
  solveAux strategy (spec.upload_sequences.length + 1) spec

/-! ## The sequence-progress rule (spec §4.2) and its invariant -/

/-- The progress rule as written in the spec (§4.2): absorbing at 0, decrement
on matching `expected = sequence[len - r]`, full reset on mismatch.  The code's
per-child update and its seed initialisation are both proved below to agree
with one application of this rule. -/
def progressRule (seq : List CellValueType) (r : Nat) (v : CellValueType) : Nat :=
  if r = 0 then 0
  else if seq.getD (seq.length - r) "" = v then r - 1
  else seq.length

/-- What `remaining = r` means for sequence `seq` against the value list `vs`:
`r` never exceeds the sequence length; a completed counter means the sequence
occurs contiguously in `vs`; an in-progress counter means the already-matched
prefix of `seq` is a suffix of `vs`. -/
def SeqInv (seq : List CellValueType) (r : Nat) (vs : List CellValueType) : Prop :=
  r ≤ seq.length ∧ (r = 0 → seq <:+: vs) ∧
    (0 < r → seq.take (seq.length - r) <:+ vs)

lemma seqInv_init (seq : List CellValueType) : SeqInv seq seq.length [] := by
  refine ⟨le_refl _, fun h => ?_, fun h => ?_⟩
  · rw [List.length_eq_zero] at h
    simp [h]
  · simp

lemma take_succ_getD {l : List α} {m : Nat} (h : m < l.length) (d : α) :
    l.take (m + 1) = l.take m ++ [l.getD m d] := by
  rw [List.getD_eq_getElem l d h]
  rw [List.take_succ, List.getElem?_eq_getElem h]
  rfl

lemma suffix_append_singleton {l₁ l₂ : List α} (h : l₁ <:+ l₂) (v : α) :
    l₁ ++ [v] <:+ l₂ ++ [v] := by
  obtain ⟨s, rfl⟩ := h
  exact ⟨s, by simp⟩

lemma infix_append_singleton {l₁ l₂ : List α} (h : l₁ <:+: l₂) (v : α) :
    l₁ <:+: l₂ ++ [v] := by
  obtain ⟨s, t, rfl⟩ := h
  exact ⟨s, t ++ [v], by simp⟩

/-- One application of the progress rule preserves the invariant. -/
lemma seqInv_progress {seq : List CellValueType} {r : Nat} {vs : List CellValueType}
    (h : SeqInv seq r vs) (v : CellValueType) :
    SeqInv seq (progressRule seq r v) (vs ++ [v]) := by
  obtain ⟨hle, hzero, hpos⟩ := h
  unfold progressRule
  by_cases hr : r = 0
  · subst hr
    simp only [if_pos rfl]
    exact ⟨Nat.zero_le _, fun _ => infix_append_singleton (hzero rfl) v,
      fun h => absurd h (lt_irrefl 0)⟩
  · have hrpos : 0 < r := Nat.pos_of_ne_zero hr
    have hlen : 0 < seq.length := lt_of_lt_of_le hrpos hle
    rw [if_neg hr]
    by_cases hmatch : seq.getD (seq.length - r) "" = v
    · rw [if_pos hmatch]
      refine ⟨Nat.le_trans (Nat.sub_le _ _) hle, fun h1 => ?_, fun h1 => ?_⟩
      · -- r - 1 = 0, so r = 1: the whole sequence is now matched as a suffix.
        have hr1 : r = 1 := by omega
        subst hr1
        have htake : seq.take (seq.length - 1) <:+ vs := hpos hrpos
        have hfull : seq = seq.take (seq.length - 1) ++ [v] := by
          have h2 : seq.length - 1 < seq.length := by omega
          have := take_succ_getD h2 (d := "")
          rw [hmatch] at this
          have h3 : seq.length - 1 + 1 = seq.length := by omega
          rw [h3, List.take_length] at this
          exact this
        rw [hfull]
        exact (suffix_append_singleton htake v).isInfix
      · -- still in progress: one more matched cell extends the suffix.
        have h2 : seq.length - (r - 1) = (seq.length - r) + 1 := by omega
        rw [h2, take_succ_getD (by omega) (d := ""), hmatch]
        exact suffix_append_singleton (hpos hrpos) v
    · rw [if_neg hmatch]
      refine ⟨le_refl _, fun h1 => ?_, fun _ => ?_⟩
      · omega
      · simp

/-! ## Reachable search states and their invariant -/

/-- Every element is bounded by `maxRemaining` (Python's `max`, totalised with
the `Nat` identity `0`). -/
lemma le_maxRemaining {x : Nat} {l : List Nat} (h : x ∈ l) : x ≤ maxRemaining l := by
  induction l with
  | nil => cases h
  | cons a l ih =>
    rcases List.mem_cons.mp h with rfl | h'
    · exact le_max_left _ _
    · exact le_trans (ih h') (le_max_right _ _)

/-- A remaining vector with nonzero sum has a positive maximum. -/
lemma one_le_maxRemaining_of_sum_ne_zero {l : List Nat} (h : l.sum ≠ 0) :
    1 ≤ maxRemaining l := by
  by_contra hcon
  apply h
  have hmax : maxRemaining l = 0 := by omega
  apply List.sum_eq_zero
  intro x hx
  have := le_maxRemaining hx
  omega

lemma getD_append_left {l₁ l₂ : List α} {n : Nat} (h : n < l₁.length) (d : α) :
    (l₁ ++ l₂).getD n d = l₁.getD n d := by
  rw [List.getD_eq_getElem _ d (by simp; omega), List.getD_eq_getElem _ d h,
    List.getElem_append_left h]

lemma getD_concat_length {l : List α} {a : α} (d : α) :
    (l ++ [a]).getD l.length d = a := by
  rw [List.getD_eq_getElem _ d (by simp)]
  simp

lemma getD_map_of_lt {f : α → β} {l : List α} {n : Nat} (h : n < l.length)
    (d : α) (d' : β) : (l.map f).getD n d' = f (l.getD n d) := by
  rw [List.getD_eq_getElem _ d' (by simpa using h), List.getD_eq_getElem _ d h,
    List.getElem_map]

/-- The last element of a nonempty list, through `getD`. -/
lemma getD_of_getLast? {l : List α} {a : α} (h : l.getLast? = some a) (d : α) :
    l.getD (l.length - 1) d = a := by
  have hne : l ≠ [] := by rintro rfl; simp at h
  have hlen : 0 < l.length := List.length_pos.mpr hne
  rw [List.getD_eq_getElem _ d (by omega)]
  rw [List.getLast?_eq_getElem?] at h
  have := List.getElem?_eq_getElem (l := l) (n := l.length - 1) (by omega)
  rw [this] at h
  exact (Option.some.injEq _ _).mp h

/-- The alternation property of a step list, exactly as the spec states it:
step 0 is in row 0 is handled separately; here, every odd-indexed step shares
its column with its predecessor and every even-indexed step (index > 0) shares
its row with its predecessor. -/
def stepsAlternate (steps : List SolutionStep) : Prop :=
  ∀ k, 0 < k → k < steps.length →
    (k % 2 = 1 →
      (steps.getD k defaultStep).col_idx = (steps.getD (k - 1) defaultStep).col_idx) ∧
    (k % 2 = 0 →
      (steps.getD k defaultStep).row_idx = (steps.getD (k - 1) defaultStep).row_idx)

/-- The search states that the DFS engine can ever construct during one
invocation on `spec`: the row-0 seeds, and the children built from an expanded
state (one that passed the acceptance and pruning checks) for a candidate cell
not yet on the path. -/
inductive Reached (spec : GameSpecification) : SearchStackItem → Prop where
  | seed (c : Nat) (v : CellValueType)
      (h : (c, v) ∈ spec.code_matrix.iterateRow 0) :
      Reached spec (seedItem spec c v)
  | expand (it : SearchStackItem) (next : SolutionStep)
      (hit : Reached spec it)
      (hsum : it.incomplete_sequence_length.sum ≠ 0)
      (hprune : ¬ ((spec.buffer_size - it.steps.length : Int) <
          (maxRemaining it.incomplete_sequence_length : Int)))
      (hmem : next ∈ nextStepsOf spec it)
      (hnew : next ∉ it.steps) :
      Reached spec (childItem spec it next)

/-- The full invariant carried by every reachable search state. -/
structure StateInv (spec : GameSpecification) (it : SearchStackItem) : Prop where
  ne : it.steps ≠ []
  last : it.steps.getLast? = some it.current_step
  head_row : (it.steps.getD 0 defaultStep).row_idx = 0
  alt : stepsAlternate it.steps
  dir : it.next_pick_direction =
    (if it.steps.length % 2 = 1 then CellChoiceDirection.COLUMN
     else CellChoiceDirection.ROW)
  nodup : it.steps.Nodup
  rem_len : it.incomplete_sequence_length.length = spec.upload_sequences.length
  rem_inv : ∀ i, i < spec.upload_sequences.length →
    SeqInv (spec.upload_sequences.getD i defaultSequence).cells
      (it.incomplete_sequence_length.getD i 0) (pathValues it)
  len_le : it.steps.length ≤ max 1 spec.buffer_size.toNat

/-- A candidate drawn while the pick direction is COLUMN keeps the current
column and changes the row. -/
lemma nextSteps_column {spec : GameSpecification} {it : SearchStackItem}
    {next : SolutionStep} (hdir : it.next_pick_direction = CellChoiceDirection.COLUMN)
    (hm : next ∈ nextStepsOf spec it) :
    next.col_idx = it.current_step.col_idx ∧ next.row_idx ≠ it.current_step.row_idx := by
  unfold nextStepsOf at hm
  rw [hdir] at hm
  simp only [List.mem_map, List.mem_filter] at hm
  obtain ⟨p, ⟨_, hp⟩, rfl⟩ := hm
  exact ⟨rfl, by simpa using hp⟩

/-- A candidate drawn while the pick direction is ROW keeps the current row and
changes the column. -/
lemma nextSteps_row {spec : GameSpecification} {it : SearchStackItem}
    {next : SolutionStep} (hdir : it.next_pick_direction = CellChoiceDirection.ROW)
    (hm : next ∈ nextStepsOf spec it) :
    next.row_idx = it.current_step.row_idx ∧ next.col_idx ≠ it.current_step.col_idx := by
  unfold nextStepsOf at hm
  rw [hdir] at hm
  simp only [List.mem_map, List.mem_filter] at hm
  obtain ⟨p, ⟨_, hp⟩, rfl⟩ := hm
  exact ⟨rfl, by simpa using hp⟩

/-- The seed initialisation `len(seq) - (1 if seq[0] == v else 0)` is exactly
one application of the progress rule starting from `remaining = len(seq)`. -/
lemma seed_formula_eq_rule (seq : List CellValueType) (v : CellValueType) :
    seq.length - (if seq.getD 0 "" = v then 1 else 0) = progressRule seq seq.length v := by
  unfold progressRule
  by_cases h0 : seq.length = 0
  · simp [h0]
  · rw [if_neg h0, Nat.sub_self]
    by_cases hm : seq.getD 0 "" = v
    · rw [if_pos hm, if_pos hm]
    · rw [if_neg hm, if_neg hm, Nat.sub_zero]

/-- Entry `i` of a seed's remaining vector, as one progress-rule application. -/
lemma seed_remaining_getD (spec : GameSpecification) (c : Nat) (v : CellValueType)
    {i : Nat} (hi : i < spec.upload_sequences.length) :
    (seedItem spec c v).incomplete_sequence_length.getD i 0 =
      progressRule (spec.upload_sequences.getD i defaultSequence).cells
        (spec.upload_sequences.getD i defaultSequence).cells.length v := by
  unfold seedItem
  simp only
  rw [getD_map_of_lt hi defaultSequence]
  exact seed_formula_eq_rule _ v

/-- Entry `i` of the child update, as one progress-rule application. -/
lemma updatedRemaining_getD {seqs : List UploadSequence} {remaining : List Nat}
    (v : CellValueType) (hlen : remaining.length = seqs.length)
    {i : Nat} (hi : i < seqs.length) :
    (updatedRemaining seqs remaining v).getD i 0 =
      progressRule (seqs.getD i defaultSequence).cells (remaining.getD i 0) v := by
  unfold updatedRemaining progressRule
  have hz : i < (seqs.zip remaining).length := by
    rw [List.length_zip]
    omega
  rw [getD_map_of_lt hz (defaultSequence, 0)]
  rw [List.getD_eq_getElem _ _ hz, List.getElem_zip]
  rw [List.getD_eq_getElem seqs defaultSequence hi,
    List.getD_eq_getElem remaining 0 (by omega)]

lemma updatedRemaining_length (seqs : List UploadSequence) (remaining : List Nat)
    (v : CellValueType) (hlen : remaining.length = seqs.length) :
    (updatedRemaining seqs remaining v).length = seqs.length := by
  simp [updatedRemaining, hlen]

lemma pathValues_childItem (spec : GameSpecification) (it : SearchStackItem)
    (next : SolutionStep) :
    pathValues (childItem spec it next) = pathValues it ++ [next.value] := by
  simp [pathValues, childItem]

/-- Every reachable search state satisfies the full invariant. -/
theorem reached_stateInv {spec : GameSpecification} {it : SearchStackItem}
    (h : Reached spec it) : StateInv spec it := by
  induction h with
  | seed c v hm =>
    refine ⟨by simp [seedItem], by simp [seedItem], by simp [seedItem], ?_,
      by simp [seedItem], by simp [seedItem], by simp [seedItem], ?_, by simp [seedItem]⟩
    · intro k hk hk'
      simp [seedItem] at hk'
      omega
    · intro i hi
      rw [seed_remaining_getD spec c v hi]
      have := seqInv_progress
        (seqInv_init (spec.upload_sequences.getD i defaultSequence).cells) v
      simpa [seedItem, pathValues] using this
  | expand it next hit hsum hprune hmem hnew ih =>
    have hL : 0 < it.steps.length := List.length_pos.mpr ih.ne
    refine ⟨by simp [childItem], ?_, ?_, ?_, ?_, ?_, ?_, ?_, ?_⟩
    · simp [childItem]
    · show ((it.steps ++ [next]).getD 0 defaultStep).row_idx = 0
      rw [getD_append_left hL]
      exact ih.head_row
    · -- alternation
      intro k hk hklt
      simp only [childItem, List.length_append, List.length_singleton] at hklt
      by_cases hkL : k < it.steps.length
      · have hk1 : k - 1 < it.steps.length := by omega
        show _ ∧ _
        simp only [childItem]
        rw [getD_append_left hkL, getD_append_left hk1]
        exact ih.alt k hk hkL
      · have hkeq : k = it.steps.length := by omega
        subst hkeq
        simp only [childItem]
        rw [getD_concat_length]
        have hk1 : it.steps.length - 1 < it.steps.length := by omega
        rw [getD_append_left hk1, getD_of_getLast? ih.last]
        constructor
        · intro hodd
          have hdir : it.next_pick_direction = CellChoiceDirection.COLUMN := by
            rw [ih.dir, if_pos hodd]
          exact (nextSteps_column hdir hmem).1
        · intro heven
          have hdir : it.next_pick_direction = CellChoiceDirection.ROW := by
            rw [ih.dir, if_neg (by omega)]
          exact (nextSteps_row hdir hmem).1
    · -- direction parity
      show flipDir it.next_pick_direction = _
      rw [ih.dir]
      simp only [childItem, List.length_append, List.length_singleton]
      rcases Nat.mod_two_eq_zero_or_one it.steps.length with hpar | hpar
      · rw [if_neg (by omega), if_pos (by omega)]
        rfl
      · rw [if_pos hpar, if_neg (by omega)]
        rfl
    · -- nodup
      show (it.steps ++ [next]).Nodup
      rw [List.nodup_append]
      exact ⟨ih.nodup, List.nodup_singleton next, by simpa using hnew⟩
    · -- remaining length
      show (updatedRemaining _ _ _).length = _
      exact updatedRemaining_length _ _ _ ih.rem_len
    · -- per-sequence invariant
      intro i hi
      show SeqInv _ ((updatedRemaining _ _ _).getD i 0) _
      rw [updatedRemaining_getD next.value ih.rem_len hi, pathValues_childItem]
      exact seqInv_progress (ih.rem_inv i hi) next.value
    · -- length bound
      show (it.steps ++ [next]).length ≤ _
      have hM := one_le_maxRemaining_of_sum_ne_zero hsum
      rw [Int.not_lt] at hprune
      simp only [List.length_append, List.length_singleton]
      omega

/-! ## Soundness of the DFS loop: every collected solution comes from a
reachable accepted state -/

/-- `s` is a solution materialised from some reachable state whose remaining
vector sums to zero (the acceptance condition of the loop). -/
def SolFrom (spec : GameSpecification) (s : Solution) : Prop :=
  ∃ it, Reached spec it ∧ it.incomplete_sequence_length.sum = 0 ∧ s.steps = it.steps

lemma childrenOf_reached {spec : GameSpecification} {it : SearchStackItem}
    (hit : Reached spec it) (hsum : it.incomplete_sequence_length.sum ≠ 0)
    (hprune : ¬ ((spec.buffer_size - it.steps.length : Int) <
        (maxRemaining it.incomplete_sequence_length : Int))) :
    ∀ c ∈ childrenOf spec it, Reached spec c := by
  intro c hc
  unfold childrenOf at hc
  simp only [List.mem_map, List.mem_filter] at hc
  obtain ⟨nx, ⟨hnx, hdec⟩, rfl⟩ := hc
  exact Reached.expand it nx hit hsum hprune hnx (by simpa using hdec)

lemma solveLoop_sound (spec : GameSpecification) (strategy : SolutionStrategy) :
    ∀ fuel stack solutions,
      (∀ it ∈ stack, Reached spec it) → (∀ s ∈ solutions, SolFrom spec s) →
      ∀ s ∈ solveLoop spec strategy fuel stack solutions, SolFrom spec s := by
  intro fuel
  induction fuel with
  | zero =>
    intro stack solutions _ hsol s hs
    exact hsol s hs
  | succ fuel ih =>
    intro stack solutions hst hsol s hs
    cases stack with
    | nil => exact hsol s hs
    | cons it stack' =>
      have hit : Reached spec it := hst it (List.mem_cons_self it stack')
      have hst' : ∀ t ∈ stack', Reached spec t := fun t ht =>
        hst t (List.mem_cons_of_mem _ ht)
      simp only [solveLoop] at hs
      by_cases h0 : it.incomplete_sequence_length.sum = 0
      · rw [if_pos h0] at hs
        have hsol' : ∀ t ∈ solutions ++ [⟨it.steps⟩], SolFrom spec t := by
          intro t ht
          rcases List.mem_append.mp ht with h | h
          · exact hsol t h
          · rw [List.mem_singleton.mp h]
            exact ⟨it, hit, h0, rfl⟩
        by_cases hstrat : strategy = SolutionStrategy.FIND_FIRST_SOLUTION
        · rw [if_pos hstrat] at hs
          exact hsol' s hs
        · rw [if_neg hstrat] at hs
          exact ih stack' _ hst' hsol' s hs
      · rw [if_neg h0] at hs
        by_cases hpr : (spec.buffer_size - it.steps.length : Int) <
            (maxRemaining it.incomplete_sequence_length : Int)
        · rw [if_pos hpr] at hs
          exact ih stack' _ hst' hsol s hs
        · rw [if_neg hpr] at hs
          refine ih _ _ ?_ hsol s hs
          intro t ht
          rcases List.mem_append.mp ht with h | h
          · exact childrenOf_reached hit h0 hpr t (List.mem_reverse.mp h)
          · exact hst' t h

/-! ## Properties of the final stable sort by path length -/

lemma mem_sortSolutionsByLength {s : Solution} {l : List Solution} :
    s ∈ sortSolutionsByLength l ↔ s ∈ l :=
  List.mem_insertionSort solutionLenLE

lemma sorted_sortSolutionsByLength (l : List Solution) :
    List.Sorted solutionLenLE (sortSolutionsByLength l) :=
  List.sorted_insertionSort solutionLenLE l

/-- Stability of one ordered insertion, seen through a length filter: the
inserted element lands in front of exactly the elements of its own length
class, because insertion skips only strictly shorter elements. -/
lemma filter_orderedInsert_length (n : Nat) (a : Solution) (l : List Solution) :
    (l.orderedInsert solutionLenLE a).filter (fun s => s.steps.length == n) =
      if a.steps.length = n then
        a :: l.filter (fun s => s.steps.length == n)
      else l.filter (fun s => s.steps.length == n) := by
  induction l with
  | nil =>
    by_cases ha : a.steps.length = n <;>
      simp [List.orderedInsert, List.filter_cons, ha]
  | cons b l ih =>
    simp only [List.orderedInsert]
    by_cases hab : solutionLenLE a b
    · rw [if_pos hab]
      by_cases ha : a.steps.length = n <;>
        by_cases hb : b.steps.length = n <;>
          simp [List.filter_cons, ha, hb]
    · rw [if_neg hab]
      have hblt : b.steps.length < a.steps.length := by
        unfold solutionLenLE at hab
        omega
      by_cases ha : a.steps.length = n
      · have hb : b.steps.length ≠ n := by omega
        rw [if_pos ha, List.filter_cons, List.filter_cons]
        simp only [beq_iff_eq, if_neg hb]
        rw [ih, if_pos ha]
      · rw [if_neg ha, List.filter_cons, List.filter_cons, ih, if_neg ha]

/-- Stability of the whole sort: filtering any one length class out of the
sorted output gives the same list as filtering it out of the input, i.e. ties
retain their discovery order. -/
lemma filter_sortSolutionsByLength (l : List Solution) (n : Nat) :
    (sortSolutionsByLength l).filter (fun s => s.steps.length == n) =
      l.filter (fun s => s.steps.length == n) := by
  induction l with
  | nil => rfl
  | cons b l ih =>
    show ((List.insertionSort solutionLenLE l).orderedInsert solutionLenLE b).filter _ = _
    rw [filter_orderedInsert_length]
    by_cases hb : b.steps.length = n
    · rw [if_pos hb]
      rw [List.filter_cons]
      simp only [beq_iff_eq, hb, ite_true, if_pos]
      exact congrArg _ ih
    · rw [if_neg hb]
      rw [List.filter_cons]
      simp only [beq_iff_eq, hb, ite_false, if_neg]
      exact ih

/-- Sorting a list of solutions of one common length is the identity. -/
lemma sortSolutionsByLength_eq_self {l : List Solution} {c : Nat}
    (h : ∀ s ∈ l, s.steps.length = c) : sortSolutionsByLength l = l := by
  apply List.Sorted.insertionSort_eq
  induction l with
  | nil => exact List.sorted_nil
  | cons b l ih =>
    refine List.sorted_cons.mpr ⟨fun t ht => ?_, ih fun t ht => h t (List.mem_cons_of_mem _ ht)⟩
    show b.steps.length ≤ t.steps.length
    rw [h b (List.mem_cons_self b l), h t (List.mem_cons_of_mem _ ht)]

/-! ## Soundness of `solveInternal` and `solve` -/

lemma initialStack_reached (spec : GameSpecification) :
    ∀ it ∈ initialStack spec, Reached spec it := by
  intro it hit
  unfold initialStack at hit
  rw [List.mem_reverse] at hit
  simp only [List.mem_map] at hit
  obtain ⟨p, hp, rfl⟩ := hit
  exact Reached.seed p.1 p.2 hp

/-- Every solution returned by `solveInternal` is materialised from a
reachable accepted search state. -/
lemma solveInternal_sound {spec : GameSpecification} {strategy : SolutionStrategy}
    {s : Solution} (h : s ∈ solveInternal spec strategy) : SolFrom spec s := by
  rw [solveInternal, mem_sortSolutionsByLength] at h
  exact solveLoop_sound spec strategy _ _ [] (initialStack_reached spec)
    (by intro t ht; cases ht) s h

/-- Every solution returned by `solve` was returned by `solveInternal` on a
specification with the same grid, the same buffer size and a sub-list (a
suffix of relaxation steps) of the original upload sequences. -/
lemma solveAux_mem {strategy : SolutionStrategy} :
    ∀ fuel (spec : GameSpecification) (s : Solution), s ∈ solveAux strategy fuel spec →
      ∃ seqs, seqs.Sublist spec.upload_sequences ∧
        s ∈ solveInternal ⟨spec.code_matrix, seqs, spec.buffer_size⟩ strategy := by
  intro fuel
  induction fuel with
  | zero =>
    intro spec s hs
    cases hs
  | succ fuel ih =>
    intro spec s hs
    simp only [solveAux] at hs
    by_cases hemp : (solveInternal spec strategy).isEmpty
    · rw [if_pos hemp] at hs
      by_cases hp : 1 < (uniquePriorities spec.upload_sequences).length
      · rw [if_pos hp] at hs
        obtain ⟨seqs, hsub, hmem⟩ := ih (relaxedSpec spec) s hs
        exact ⟨seqs, hsub.trans (List.filter_sublist _), hmem⟩
      · rw [if_neg hp] at hs
        exact ⟨spec.upload_sequences, List.Sublist.refl _, hs⟩
    · rw [if_neg hemp] at hs
      exact ⟨spec.upload_sequences, List.Sublist.refl _, hs⟩

/-- All structural facts about a solution returned by one `solveInternal` run:
nonempty path starting in row 0, row/column alternation, no reused cell, path
length within the buffer bound, and coverage of every upload sequence of the
specification it ran on. -/
lemma solveInternal_solution_props {spec : GameSpecification}
    {strategy : SolutionStrategy} {s : Solution}
    (h : s ∈ solveInternal spec strategy) :
    s.steps ≠ [] ∧ (s.steps.getD 0 defaultStep).row_idx = 0 ∧
      stepsAlternate s.steps ∧ s.steps.Nodup ∧
      s.steps.length ≤ max 1 spec.buffer_size.toNat ∧
      ∀ seq ∈ spec.upload_sequences, seq.cells <:+: s.steps.map (·.value) := by
  obtain ⟨it, hre, hsum, hsteps⟩ := solveInternal_sound h
  have hinv := reached_stateInv hre
  rw [hsteps]
  refine ⟨hinv.ne, hinv.head_row, hinv.alt, hinv.nodup, hinv.len_le, ?_⟩
  intro seq hseq
  obtain ⟨i, hi, hgi⟩ := List.mem_iff_getElem.mp hseq
  have hseq_getD : spec.upload_sequences.getD i defaultSequence = seq := by
    rw [List.getD_eq_getElem _ _ hi, hgi]
  have hrem : it.incomplete_sequence_length.getD i 0 = 0 := by
    have hilen : i < it.incomplete_sequence_length.length := by
      rw [hinv.rem_len]; exact hi
    have hmem : it.incomplete_sequence_length.getD i 0 ∈
        it.incomplete_sequence_length := by
      rw [List.getD_eq_getElem _ _ hilen]
      exact List.getElem_mem hilen
    have := List.single_le_sum (fun x _ => Nat.zero_le x) _ hmem
    omega
  have := (hinv.rem_inv i hi).2.1 hrem
  rw [hseq_getD] at this
  exact this

/-- The length of a solution list is preserved by the final sort. -/
lemma length_sortSolutionsByLength (l : List Solution) :
    (sortSolutionsByLength l).length = l.length :=
  (List.perm_insertionSort solutionLenLE l).length_eq

/-- Under FIND_FIRST_SOLUTION the loop adds at most one solution. -/
lemma solveLoop_first_length (spec : GameSpecification) :
    ∀ fuel stack solutions,
      (solveLoop spec SolutionStrategy.FIND_FIRST_SOLUTION fuel stack solutions).length ≤
        solutions.length + 1 := by
  intro fuel
  induction fuel with
  | zero =>
    intro stack solutions
    exact Nat.le_succ _
  | succ fuel ih =>
    intro stack solutions
    cases stack with
    | nil => exact Nat.le_succ _
    | cons it stack' =>
      simp only [solveLoop]
      by_cases h0 : it.incomplete_sequence_length.sum = 0
      · rw [if_pos h0]
        simp
      · rw [if_neg h0]
        by_cases hpr : (spec.buffer_size - it.steps.length : Int) <
            (maxRemaining it.incomplete_sequence_length : Int)
        · rw [if_pos hpr]
          exact ih stack' solutions
        · rw [if_neg hpr]
          exact ih _ solutions

lemma solveInternal_first_length (spec : GameSpecification) :
    (solveInternal spec SolutionStrategy.FIND_FIRST_SOLUTION).length ≤ 1 := by
  rw [solveInternal, length_sortSolutionsByLength]
  simpa using solveLoop_first_length spec (fuelFor spec) (initialStack spec) []

lemma solveAux_first_length :
    ∀ fuel (spec : GameSpecification),
      (solveAux SolutionStrategy.FIND_FIRST_SOLUTION fuel spec).length ≤ 1 := by
  intro fuel
  induction fuel with
  | zero =>
    intro spec
    simp [solveAux]
  | succ fuel ih =>
    intro spec
    simp only [solveAux]
    by_cases hemp : (solveInternal spec SolutionStrategy.FIND_FIRST_SOLUTION).isEmpty
    · rw [if_pos hemp]
      by_cases hp : 1 < (uniquePriorities spec.upload_sequences).length
      · rw [if_pos hp]
        exact ih _
      · rw [if_neg hp]
        exact solveInternal_first_length spec
    · rw [if_neg hemp]
      exact solveInternal_first_length spec

/-- Whatever `solveAux` returns is the stable length-sort of some list. -/
lemma solveAux_eq_sorted (strategy : SolutionStrategy) :
    ∀ fuel (spec : GameSpecification),
      ∃ l, solveAux strategy fuel spec = sortSolutionsByLength l := by
  intro fuel
  induction fuel with
  | zero =>
    intro spec
    exact ⟨[], rfl⟩
  | succ fuel ih =>
    intro spec
    simp only [solveAux]
    by_cases hemp : (solveInternal spec strategy).isEmpty
    · rw [if_pos hemp]
      by_cases hp : 1 < (uniquePriorities spec.upload_sequences).length
      · rw [if_pos hp]
        exact ih _
      · rw [if_neg hp]
        exact ⟨_, rfl⟩
    · rw [if_neg hemp]
      exact ⟨_, rfl⟩

/-! ## The relaxation step of `solve` -/

/-- The head of `uniquePriorities` is a lower bound of every priority present
(it is the minimum priority: `sorted(set(...))[0]`). -/
lemma min_uniquePriorities {seqs : List UploadSequence} {x : Int}
    (hx : x ∈ seqs.map (·.priority)) : (uniquePriorities seqs).headD 0 ≤ x := by
  have hxu : x ∈ uniquePriorities seqs := by
    rw [uniquePriorities, List.mem_insertionSort, List.mem_dedup]
    exact hx
  have hsorted : List.Sorted (· ≤ ·) (uniquePriorities seqs) :=
    List.sorted_insertionSort (· ≤ ·) _
  cases hup : uniquePriorities seqs with
  | nil =>
    rw [hup] at hxu
    cases hxu
  | cons a t =>
    rw [hup] at hxu hsorted
    rw [List.headD_cons]
    rcases List.mem_cons.mp hxu with rfl | hxt
    · exact le_refl x
    · exact List.rel_of_sorted_cons hsorted x hxt

/-- The minimum priority of `uniquePriorities` is attained by some sequence. -/
lemma min_uniquePriorities_mem {seqs : List UploadSequence}
    (hne : uniquePriorities seqs ≠ []) :
    ∃ u ∈ seqs, u.priority = (uniquePriorities seqs).headD 0 := by
  have hhead : (uniquePriorities seqs).headD 0 ∈ uniquePriorities seqs := by
    cases hup : uniquePriorities seqs with
    | nil => exact absurd hup hne
    | cons a t =>
      rw [List.headD_cons]
      exact List.mem_cons_self a t
  rw [uniquePriorities, List.mem_insertionSort, List.mem_dedup, List.mem_map] at hhead
  obtain ⟨u, hu, hequ⟩ := hhead
  exact ⟨u, hu, hequ⟩

lemma length_filter_lt_of_mem_not {l : List α} {p : α → Bool} {a : α}
    (ha : a ∈ l) (hpa : p a = false) : (l.filter p).length < l.length := by
  induction l with
  | nil => cases ha
  | cons b t ih =>
    rcases List.mem_cons.mp ha with rfl | hat
    · have := List.length_filter_le p t
      simp only [List.filter_cons, hpa, Bool.false_eq_true, if_false, List.length_cons]
      omega
    · cases hb : p b
      · have := List.length_filter_le p t
        simp only [List.filter_cons, hb, Bool.false_eq_true, if_false, List.length_cons]
        omega
      · have := ih hat
        simp only [List.filter_cons, hb, if_true, List.length_cons]
        omega

/-- Relaxation strictly shrinks the sequence list when at least two distinct
priorities are present: the minimum-priority sequences are removed. -/
lemma relaxed_length_lt (spec : GameSpecification)
    (hp : 1 < (uniquePriorities spec.upload_sequences).length) :
    (relaxedSpec spec).upload_sequences.length < spec.upload_sequences.length := by
  have hne : uniquePriorities spec.upload_sequences ≠ [] := by
    intro h
    rw [h] at hp
    simp at hp
  obtain ⟨u, hu, hequ⟩ := min_uniquePriorities_mem hne
  refine length_filter_lt_of_mem_not hu ?_
  rw [hequ]
  simp

/-- `solveAux` is independent of the fuel as long as it exceeds the length of
the sequence list (which bounds the relaxation depth). -/
lemma solveAux_fuel_congr (strategy : SolutionStrategy) :
    ∀ fuel₁ fuel₂ (spec : GameSpecification),
      spec.upload_sequences.length < fuel₁ → spec.upload_sequences.length < fuel₂ →
      solveAux strategy fuel₁ spec = solveAux strategy fuel₂ spec := by
  intro fuel₁
  induction fuel₁ with
  | zero =>
    intro fuel₂ spec h1 _
    omega
  | succ fuel₁ ih =>
    intro fuel₂ spec h1 h2
    cases fuel₂ with
    | zero => omega
    | succ fuel₂ =>
      simp only [solveAux]
      by_cases hemp : (solveInternal spec strategy).isEmpty
      · rw [if_pos hemp, if_pos hemp]
        by_cases hp : 1 < (uniquePriorities spec.upload_sequences).length
        · rw [if_pos hp, if_pos hp]
          have hlt := relaxed_length_lt spec hp
          exact ih fuel₂ (relaxedSpec spec) (by omega) (by omega)
        · rw [if_neg hp, if_neg hp]
      · rw [if_neg hemp, if_neg hemp]

/-- With sufficient fuel, what `solveAux` returns is the stable length-sort of
the discovery-order solution list of the DFS run on the final (possibly
relaxed) specification: a sub-list of the original upload sequences searched
with the same grid and buffer size. -/
lemma solveAux_eq_sorted_discovered (strategy : SolutionStrategy) :
    ∀ fuel (spec : GameSpecification), spec.upload_sequences.length < fuel →
      ∃ survivors, survivors.Sublist spec.upload_sequences ∧
        solveAux strategy fuel spec =
          sortSolutionsByLength
            (discoveredSolutions ⟨spec.code_matrix, survivors, spec.buffer_size⟩
              strategy) := by
  intro fuel
  induction fuel with
  | zero =>
    intro spec h
    omega
  | succ fuel ih =>
    intro spec h
    simp only [solveAux]
    by_cases hemp : (solveInternal spec strategy).isEmpty
    · rw [if_pos hemp]
      by_cases hp : 1 < (uniquePriorities spec.upload_sequences).length
      · rw [if_pos hp]
        have hlt := relaxed_length_lt spec hp
        obtain ⟨survivors, hsub, heq⟩ := ih (relaxedSpec spec) (by omega)
        exact ⟨survivors, hsub.trans (List.filter_sublist _), heq⟩
      · rw [if_neg hp]
        exact ⟨spec.upload_sequences, List.Sublist.refl _, rfl⟩
    · rw [if_neg hemp]
      exact ⟨spec.upload_sequences, List.Sublist.refl _, rfl⟩

/-! ## Exact behaviour on an empty sequence set -/

/-- When every stacked state is already accepted (remaining sums to zero), the
exhaustive loop pops them all in order and records one solution each. -/
lemma solveLoop_all_accepted (spec : GameSpecification) :
    ∀ (seeds : List SearchStackItem) (fuel : Nat) (sols : List Solution),
      seeds.length ≤ fuel →
      (∀ it ∈ seeds, it.incomplete_sequence_length.sum = 0) →
      solveLoop spec SolutionStrategy.FIND_ALL_SOLUTIONS fuel seeds sols =
        sols ++ seeds.map (fun it => ⟨it.steps⟩) := by
  intro seeds
  induction seeds with
  | nil =>
    intro fuel sols _ _
    cases fuel <;> simp [solveLoop]
  | cons it rest ih =>
    intro fuel sols hlen hall
    cases fuel with
    | zero =>
      simp at hlen
    | succ f =>
      simp only [solveLoop]
      rw [if_pos (hall it (List.mem_cons_self it rest)), if_neg (by decide)]
      rw [ih f _ (by simp at hlen; omega)
        (fun t ht => hall t (List.mem_cons_of_mem _ ht))]
      simp

/-- When the top of the stack is already accepted, the first-solution loop
stops immediately with exactly that solution. -/
lemma solveLoop_first_accepted (spec : GameSpecification) (it : SearchStackItem)
    (rest : List SearchStackItem) (fuel : Nat) (sols : List Solution)
    (h0 : it.incomplete_sequence_length.sum = 0) :
    solveLoop spec SolutionStrategy.FIND_FIRST_SOLUTION (fuel + 1) (it :: rest) sols =
      sols ++ [⟨it.steps⟩] := by
  simp only [solveLoop]
  rw [if_pos h0]
  simp

lemma fuelFor_pos (spec : GameSpecification) : 0 < fuelFor spec :=
  Nat.pos_pow_of_pos _ (Nat.succ_pos _)

lemma size_lt_fuelFor (spec : GameSpecification) :
    spec.code_matrix.size < fuelFor spec := by
  have h := Nat.le_self_pow (n := spec.buffer_size.toNat + 2)
    (a := spec.code_matrix.size + 1) (by omega)
  unfold fuelFor
  omega

/-- With no upload sequences, every seed's remaining vector is empty. -/
lemma initialStack_sum_zero {spec : GameSpecification}
    (h : spec.upload_sequences = []) :
    ∀ it ∈ initialStack spec, it.incomplete_sequence_length.sum = 0 := by
  intro it hit
  unfold initialStack at hit
  rw [List.mem_reverse] at hit
  simp only [List.mem_map] at hit
  obtain ⟨p, _, rfl⟩ := hit
  simp [seedItem, h]

/-- The steps of the solutions collected from the seed stack, as an explicit
list: one single-step solution per cell of row 0, rightmost column first. -/
lemma initialStack_map_steps (spec : GameSpecification) :
    (initialStack spec).map (fun it => Solution.mk it.steps) =
      ((spec.code_matrix.cells.getD 0 []).enum.map
        (fun p => Solution.mk [⟨p.2, 0, p.1⟩])).reverse := by
  unfold initialStack CodeMatrix.iterateRow
  rw [List.map_reverse, List.map_map]
  rfl

/-- With no upload sequences, the exhaustive search returns one single-step
solution per cell of row 0, rightmost column first.  (The hypothesis that row
0 has `size` entries is the Grid data-model invariant; it bounds the number of
loop iterations by the fuel.) -/
lemma solveInternal_no_sequences_all {spec : GameSpecification}
    (h : spec.upload_sequences = [])
    (hrow : (spec.code_matrix.cells.getD 0 []).length = spec.code_matrix.size) :
    solveInternal spec SolutionStrategy.FIND_ALL_SOLUTIONS =
      ((spec.code_matrix.cells.getD 0 []).enum.map
        (fun p => Solution.mk [⟨p.2, 0, p.1⟩])).reverse := by
  have hstklen : (initialStack spec).length =
      (spec.code_matrix.cells.getD 0 []).length := by
    simp [initialStack, CodeMatrix.iterateRow]
  have hfuel : (initialStack spec).length ≤ fuelFor spec := by
    have := size_lt_fuelFor spec
    omega
  rw [solveInternal, discoveredSolutions,
    solveLoop_all_accepted spec _ _ _ hfuel (initialStack_sum_zero h),
    List.nil_append, initialStack_map_steps spec]
  apply sortSolutionsByLength_eq_self (c := 1)
  intro s hs
  rw [List.mem_reverse] at hs
  simp only [List.mem_map] at hs
  obtain ⟨p, _, rfl⟩ := hs
  rfl

/-- Indexing into the reversed enumeration of row 0. -/
lemma reverse_enum_map_getD {β : Type} {row : List CellValueType} {k : Nat}
    (hk : k < row.length) (f : Nat × CellValueType → β) (d : β) :
    ((row.enum.map f).reverse).getD k d =
      f (row.length - 1 - k, row.getD (row.length - 1 - k) "") := by
  have hk' : k < ((row.enum.map f).reverse).length := by
    simpa using hk
  rw [List.getD_eq_getElem _ _ hk', List.getElem_reverse, List.getElem_map,
    List.getElem_enum, List.getD_eq_getElem row "" (by simp at hk' ⊢; omega)]
  congr 1 <;> simp

/-- With no upload sequences the first-solution search accepts the top seed
(the rightmost cell of row 0) immediately. -/
lemma solveInternal_no_sequences_first {spec : GameSpecification}
    (h : spec.upload_sequences = [])
    (hne : spec.code_matrix.cells ≠ [])
    (hrow : (spec.code_matrix.cells.getD 0 []).length = spec.code_matrix.size) :
    solveInternal spec SolutionStrategy.FIND_FIRST_SOLUTION =
      [(initialStack spec).headD (seedItem spec 0 "") |>.steps |> Solution.mk] := by
  have hpos := fuelFor_pos spec
  have hrowne : spec.code_matrix.cells.getD 0 [] ≠ [] := by
    intro hcon
    rw [hcon] at hrow
    have : spec.code_matrix.size ≠ 0 := by
      simp only [CodeMatrix.size]
      exact fun hc => hne (List.length_eq_zero.mp hc)
    simp at hrow
    exact this hrow.symm
  cases hstk : initialStack spec with
  | nil =>
    rw [initialStack, CodeMatrix.iterateRow, List.reverse_eq_nil_iff,
      List.map_eq_nil_iff, List.enum_eq_nil] at hstk
    exact absurd hstk hrowne
  | cons it rest =>
    have hsum := initialStack_sum_zero h it (by rw [hstk]; exact List.mem_cons_self it rest)
    rw [solveInternal, discoveredSolutions]
    have hfuel : fuelFor spec = (fuelFor spec - 1) + 1 := by omega
    rw [hstk, hfuel, solveLoop_first_accepted spec it rest _ [] hsum]
    rfl

/-! ## Unfolding equations for `solve` -/

/-- When the full attempt finds solutions, `solve` returns them unchanged. -/
lemma solve_of_internal_ne_nil {spec : GameSpecification} {strategy : SolutionStrategy}
    (h : solveInternal spec strategy ≠ []) :
    solve spec strategy = solveInternal spec strategy := by
  rw [solve]
  simp only [solveAux]
  rw [if_neg (by simpa [List.isEmpty_iff] using h)]

/-- When the full attempt fails and at most one distinct priority remains,
`solve` returns the empty list. -/
lemma solve_of_internal_nil_no_relax {spec : GameSpecification}
    {strategy : SolutionStrategy}
    (h : solveInternal spec strategy = [])
    (hp : ¬ 1 < (uniquePriorities spec.upload_sequences).length) :
    solve spec strategy = [] := by
  rw [solve]
  simp only [solveAux]
  rw [if_pos (by simp [List.isEmpty_iff, h]), if_neg hp, h]

/-- When the full attempt fails and several distinct priorities remain,
`solve` restarts on the relaxed specification. -/
lemma solve_of_internal_nil_relax {spec : GameSpecification}
    {strategy : SolutionStrategy}
    (h : solveInternal spec strategy = [])
    (hp : 1 < (uniquePriorities spec.upload_sequences).length) :
    solve spec strategy = solve (relaxedSpec spec) strategy := by
  rw [solve, solve]
  conv_lhs => rw [show spec.upload_sequences.length + 1 =
    spec.upload_sequences.length + 1 from rfl]
  simp only [solveAux]
  rw [if_pos (by simp [List.isEmpty_iff, h]), if_pos hp]
  exact solveAux_fuel_congr strategy _ _ _ (relaxed_length_lt spec hp) (Nat.lt_succ_self _)

/-! ## Concrete instances used by witnesses and counterexamples -/

/-- The 2×2 instance of `test_solve_single_sequence_easy_matrix`. -/
def exSpec : GameSpecification :=
  { code_matrix := ⟨[["BD", "55"], ["E9", "1C"]]⟩
    upload_sequences := [⟨["55", "1C"], 1⟩]
    buffer_size := 2 }

/-- Its unique solution. -/
def exSolution : Solution := ⟨[⟨"55", 0, 1⟩, ⟨"1C", 1, 1⟩]⟩

/-- The 2×2 instance of `test_no_solutions` (sequence absent from the grid). -/
def exSpecNoSolution : GameSpecification :=
  { code_matrix := ⟨[["BD", "55"], ["E9", "1C"]]⟩
    upload_sequences := [⟨["7A", "1C"], 1⟩]
    buffer_size := 2 }

/-- A 2×2 instance with no upload sequences at all. -/
def exSpecNoSequences : GameSpecification :=
  { code_matrix := ⟨[["BD", "55"], ["E9", "1C"]]⟩
    upload_sequences := []
    buffer_size := 2 }

/-- A grid on which the reset-on-mismatch rule loses progress: looking for
`A B` along the path `A A B`. -/
def cexSpec : GameSpecification :=
  { code_matrix := ⟨[["A", "X"], ["A", "B"]]⟩
    upload_sequences := [⟨["A", "B"], 1⟩]
    buffer_size := 4 }

/-- Seed at cell (0,0) = `A`. -/
def cexItem0 : SearchStackItem := seedItem cexSpec 0 "A"

/-- After stepping to (1,0) = `A` (sharing column 0). -/
def cexItem1 : SearchStackItem := childItem cexSpec cexItem0 ⟨"A", 1, 0⟩

/-- After stepping to (1,1) = `B` (sharing row 1); the path reads `A A B`. -/
def cexItem2 : SearchStackItem := childItem cexSpec cexItem1 ⟨"B", 1, 1⟩

/-- A non-square list of rows (1 row of 2 cells). -/
def nonSquareRows : List (List CellValueType) := [["A", "B"]]

/-- Squareness as the spec defines it for Grid: positive size and every row of
exactly that length.  (Spec-side predicate; the source has no such check.) -/
def isSquareGrid (cells : List (List CellValueType)) : Prop :=
  0 < cells.length ∧ ∀ row ∈ cells, row.length = cells.length

instance (cells : List (List CellValueType)) : Decidable (isSquareGrid cells) := by
  unfold isSquareGrid
  infer_instance

lemma headD_eq_getD (l : List α) (d : α) : l.headD d = l.getD 0 d := by
  cases l <;> rfl

/-! ## The claims -/

/-- C1 (Coverage): every Solution returned by `solve`, evaluated against the
final (possibly relaxed) specification it was computed for — some sub-list
`survivors` of the original upload sequences, searched with the same grid and
buffer — has every surviving Target Sequence's cell values as a contiguous run
of its concatenated step values. -/
theorem claim_C1_coverage (spec : GameSpecification) (strategy : SolutionStrategy)
    (s : Solution) (hs : s ∈ solve spec strategy) :
    ∃ survivors, survivors.Sublist spec.upload_sequences ∧
      s ∈ solveInternal ⟨spec.code_matrix, survivors, spec.buffer_size⟩ strategy ∧
      ∀ seq ∈ survivors, seq.cells <:+: s.steps.map (·.value) := by
  rw [solve] at hs
  obtain ⟨survivors, hsub, hmem⟩ := solveAux_mem _ spec s hs
  exact ⟨survivors, hsub, hmem, (solveInternal_solution_props hmem).2.2.2.2.2⟩

/-- C1 witness: the solution of the 2×2 example instance covers its (only)
surviving sequence `55 1C`. -/
theorem claim_C1_coverage_witness :
    ∃ survivors, survivors.Sublist exSpec.upload_sequences ∧
      exSolution ∈ solveInternal ⟨exSpec.code_matrix, survivors, exSpec.buffer_size⟩
        SolutionStrategy.FIND_FIRST_SOLUTION ∧
      ∀ seq ∈ survivors, seq.cells <:+: exSolution.steps.map (·.value) :=
  claim_C1_coverage exSpec SolutionStrategy.FIND_FIRST_SOLUTION exSolution (by decide)

/-- C2 (Alternation): every Solution returned by `solve` has a nonempty step
list whose step 0 lies in row 0; every odd-indexed step shares its column with
its predecessor, and every even-indexed step (index > 0) shares its row with
its predecessor. -/
theorem claim_C2_alternation (spec : GameSpecification) (strategy : SolutionStrategy)
    (s : Solution) (hs : s ∈ solve spec strategy) :
    s.steps ≠ [] ∧ (s.steps.getD 0 defaultStep).row_idx = 0 ∧
      stepsAlternate s.steps := by
  rw [solve] at hs
  obtain ⟨survivors, _, hmem⟩ := solveAux_mem _ spec s hs
  have h := solveInternal_solution_props hmem
  exact ⟨h.1, h.2.1, h.2.2.1⟩

/-- C2 witness: the two steps of the example solution sit at (0,1) and (1,1). -/
theorem claim_C2_alternation_witness :
    exSolution.steps ≠ [] ∧ (exSolution.steps.getD 0 defaultStep).row_idx = 0 ∧
      stepsAlternate exSolution.steps :=
  claim_C2_alternation exSpec SolutionStrategy.FIND_FIRST_SOLUTION exSolution (by decide)

/-- C3 (progress rule): a child state's remaining entry `i` is one application
of the spec's §4.2 rule (absorb at 0; decrement on matching
`sequence[len - r]`; reset to `len` on mismatch) to the parent's entry and the
appended value, and a seed state's remaining entry `i` is one application of
the same rule starting from `r = len(sequence_i)` at the first cell's value. -/
theorem claim_C3_progress_rule (spec : GameSpecification) (it : SearchStackItem)
    (next : SolutionStep) (c : Nat) (v : CellValueType) (i : Nat)
    (hi : i < spec.upload_sequences.length)
    (hlen : it.incomplete_sequence_length.length = spec.upload_sequences.length) :
    (childItem spec it next).incomplete_sequence_length.getD i 0 =
      progressRule (spec.upload_sequences.getD i defaultSequence).cells
        (it.incomplete_sequence_length.getD i 0) next.value ∧
    (seedItem spec c v).incomplete_sequence_length.getD i 0 =
      progressRule (spec.upload_sequences.getD i defaultSequence).cells
        (spec.upload_sequences.getD i defaultSequence).cells.length v :=
  ⟨updatedRemaining_getD next.value hlen hi, seed_remaining_getD spec c v hi⟩

/-- C3 witness: on the `A B` instance, stepping from the seed (progress 1)
with the mismatching value `A` resets to 2, and seeding with `A` applies the
rule once from 2 (giving 1). -/
theorem claim_C3_progress_rule_witness :
    (childItem cexSpec cexItem0 ⟨"A", 1, 0⟩).incomplete_sequence_length.getD 0 0 =
      progressRule (cexSpec.upload_sequences.getD 0 defaultSequence).cells
        (cexItem0.incomplete_sequence_length.getD 0 0) (SolutionStep.mk "A" 1 0).value ∧
    (seedItem cexSpec 0 "A").incomplete_sequence_length.getD 0 0 =
      progressRule (cexSpec.upload_sequences.getD 0 defaultSequence).cells
        (cexSpec.upload_sequences.getD 0 defaultSequence).cells.length "A" :=
  claim_C3_progress_rule cexSpec cexItem0 ⟨"A", 1, 0⟩ 0 "A" 0 (by decide) (by decide)

/-- C4 counterexample: the claimed "remaining = 0 iff the path contains the
sequence" fails right-to-left.  On the grid `[[A,X],[A,B]]` with sequence
`A B` and buffer 4, the state reached via (0,0)=A, (1,0)=A, (1,1)=B has path
values `A A B`, which contain `A B` as a contiguous run, yet its remaining
count is 2 (the mismatching second `A` reset all progress and `B` alone
cannot rebuild it). -/
theorem claim_C4_counterexample :
    Reached cexSpec cexItem2 ∧
      (cexSpec.upload_sequences.getD 0 defaultSequence).cells <:+: pathValues cexItem2 ∧
      cexItem2.incomplete_sequence_length.getD 0 0 ≠ 0 := by
  refine ⟨?_, ⟨["A"], [], rfl⟩, by decide⟩
  show Reached cexSpec (childItem cexSpec cexItem1 ⟨"B", 1, 1⟩)
  apply Reached.expand cexItem1 ⟨"B", 1, 1⟩ ?_ (by decide) (by decide) (by decide) (by decide)
  show Reached cexSpec (childItem cexSpec cexItem0 ⟨"A", 1, 0⟩)
  apply Reached.expand cexItem0 ⟨"A", 1, 0⟩ ?_ (by decide) (by decide) (by decide) (by decide)
  show Reached cexSpec (seedItem cexSpec 0 "A")
  exact Reached.seed 0 "A" (by decide)

/-- C4 (amended): for every reachable Search State and every sequence index,
the remaining count lies in `[0, len(sequence_i)]`, and remaining = 0 implies
the path values contain the sequence as a contiguous run.  (The converse
implication of the original claim is false; see the counterexample: the
reset-on-mismatch rule can lose progress on a path that does contain the
sequence.) -/
theorem claim_C4_remaining_invariant (spec : GameSpecification)
    (it : SearchStackItem) (hre : Reached spec it) (i : Nat)
    (hi : i < spec.upload_sequences.length) :
    it.incomplete_sequence_length.getD i 0 ≤
      (spec.upload_sequences.getD i defaultSequence).cells.length ∧
    (it.incomplete_sequence_length.getD i 0 = 0 →
      (spec.upload_sequences.getD i defaultSequence).cells <:+: pathValues it) := by
  have h := (reached_stateInv hre).rem_inv i hi
  exact ⟨h.1, h.2.1⟩

/-- C4 witness: the invariant evaluated at the seed state of the
counterexample instance (remaining 1 ≤ 2). -/
theorem claim_C4_remaining_invariant_witness :
    cexItem0.incomplete_sequence_length.getD 0 0 ≤
      (cexSpec.upload_sequences.getD 0 defaultSequence).cells.length ∧
    (cexItem0.incomplete_sequence_length.getD 0 0 = 0 →
      (cexSpec.upload_sequences.getD 0 defaultSequence).cells <:+: pathValues cexItem0) :=
  claim_C4_remaining_invariant cexSpec cexItem0
    (Reached.seed 0 "A" (by decide)) 0 (by decide)

/-- C5 (length bound): with a positive buffer size, every Solution returned by
`solve` has at most `buffer_size` steps (pruning refuses to expand any state
whose slack is below the largest remaining count). -/
theorem claim_C5_length_bound (spec : GameSpecification) (strategy : SolutionStrategy)
    (s : Solution) (hpos : 0 < spec.buffer_size) (hs : s ∈ solve spec strategy) :
    (s.steps.length : Int) ≤ spec.buffer_size := by
  rw [solve] at hs
  obtain ⟨survivors, _, hmem⟩ := solveAux_mem _ spec s hs
  have h := (solveInternal_solution_props hmem).2.2.2.2.1
  simp only at h
  omega

/-- C5 witness: the example solution has 2 ≤ 2 steps. -/
theorem claim_C5_length_bound_witness :
    (exSolution.steps.length : Int) ≤ exSpec.buffer_size :=
  claim_C5_length_bound exSpec SolutionStrategy.FIND_FIRST_SOLUTION exSolution
    (by decide) (by decide)

/-- C6 (uniqueness): every Solution returned by `solve` visits pairwise
distinct cells — its steps, compared as (value, row, column) triples, contain
no duplicate. -/
theorem claim_C6_uniqueness (spec : GameSpecification) (strategy : SolutionStrategy)
    (s : Solution) (hs : s ∈ solve spec strategy) : s.steps.Nodup := by
  rw [solve] at hs
  obtain ⟨survivors, _, hmem⟩ := solveAux_mem _ spec s hs
  exact (solveInternal_solution_props hmem).2.2.2.1

/-- C6 witness: the example solution's steps are pairwise distinct. -/
theorem claim_C6_uniqueness_witness : exSolution.steps.Nodup :=
  claim_C6_uniqueness exSpec SolutionStrategy.FIND_FIRST_SOLUTION exSolution (by decide)

/-- C7 (result ordering): the list returned by `solve` is the stable
length-sort of `discoveredSolutions` — the concrete discovery-order list of
the DFS run on the final (possibly relaxed) specification, a sub-list
`survivors` of the original sequences with the same grid and buffer.  The
output is sorted by non-decreasing path length, and filtering out any one
length class yields that class of the pinned discovery-order list unchanged,
i.e. solutions of equal length appear in the order the loop discovered them;
under FIND_FIRST_SOLUTION the returned list has at most one element. -/
theorem claim_C7_ordering (spec : GameSpecification) (strategy : SolutionStrategy) :
    ∃ survivors, survivors.Sublist spec.upload_sequences ∧
      solve spec strategy =
        sortSolutionsByLength
          (discoveredSolutions ⟨spec.code_matrix, survivors, spec.buffer_size⟩ strategy) ∧
      List.Sorted solutionLenLE (solve spec strategy) ∧
      (∀ n, (solve spec strategy).filter (fun s => s.steps.length == n) =
        (discoveredSolutions ⟨spec.code_matrix, survivors, spec.buffer_size⟩
          strategy).filter (fun s => s.steps.length == n)) ∧
      (strategy = SolutionStrategy.FIND_FIRST_SOLUTION →
        (solve spec strategy).length ≤ 1) := by
  obtain ⟨survivors, hsub, hl⟩ :=
    solveAux_eq_sorted_discovered strategy _ spec (Nat.lt_succ_self _)
  have hsolve : solve spec strategy =
      sortSolutionsByLength
        (discoveredSolutions ⟨spec.code_matrix, survivors, spec.buffer_size⟩ strategy) := by
    rw [solve]
    exact hl
  refine ⟨survivors, hsub, hsolve, ?_, ?_, ?_⟩
  · rw [hsolve]
    exact sorted_sortSolutionsByLength _
  · intro n
    rw [hsolve]
    exact filter_sortSolutionsByLength _ n
  · rintro rfl
    rw [solve]
    exact solveAux_first_length _ spec

/-- C7 witness: on the example instance with FIND_FIRST_SOLUTION the result
has at most one element (the theorem applied at a concrete instance, with its
inner hypothesis discharged by `rfl`). -/
theorem claim_C7_ordering_witness :
    (solve exSpec SolutionStrategy.FIND_FIRST_SOLUTION).length ≤ 1 := by
  obtain ⟨survivors, _, _, _, _, hfirst⟩ :=
    claim_C7_ordering exSpec SolutionStrategy.FIND_FIRST_SOLUTION
  exact hfirst rfl

/-- C8 (relaxation): whenever the full attempt returns no solutions, then if
more than one distinct priority is present, `solve` retries on the relaxed
specification — same grid and buffer, sequence list exactly the original list
filtered to priorities strictly above the minimum present (hence a sub-list in
the original relative order, and the minimum is attained); with at most one
distinct priority left it returns the empty list. -/
theorem claim_C8_relaxation (spec : GameSpecification) (strategy : SolutionStrategy)
    (h : solveInternal spec strategy = []) :
    (1 < (uniquePriorities spec.upload_sequences).length →
      solve spec strategy = solve (relaxedSpec spec) strategy ∧
      (relaxedSpec spec).upload_sequences =
        spec.upload_sequences.filter
          (fun u => decide ((uniquePriorities spec.upload_sequences).headD 0 < u.priority)) ∧
      (relaxedSpec spec).upload_sequences.Sublist spec.upload_sequences ∧
      (∀ u ∈ spec.upload_sequences,
        (uniquePriorities spec.upload_sequences).headD 0 ≤ u.priority) ∧
      (∃ u ∈ spec.upload_sequences,
        u.priority = (uniquePriorities spec.upload_sequences).headD 0) ∧
      (relaxedSpec spec).code_matrix = spec.code_matrix ∧
      (relaxedSpec spec).buffer_size = spec.buffer_size) ∧
    (¬ 1 < (uniquePriorities spec.upload_sequences).length →
      solve spec strategy = []) := by
  constructor
  · intro hp
    refine ⟨solve_of_internal_nil_relax h hp, rfl, List.filter_sublist _, ?_, ?_, rfl, rfl⟩
    · intro u hu
      exact min_uniquePriorities (List.mem_map_of_mem _ hu)
    · refine min_uniquePriorities_mem ?_
      intro hc
      rw [hc] at hp
      simp at hp
  · intro hp
    exact solve_of_internal_nil_no_relax h hp

/-- C8 witness: the no-solution 2×2 instance has a single priority tier, so
`solve` returns the empty list. -/
theorem claim_C8_relaxation_witness :
    solve exSpecNoSolution SolutionStrategy.FIND_FIRST_SOLUTION = [] :=
  (claim_C8_relaxation exSpecNoSolution SolutionStrategy.FIND_FIRST_SOLUTION
    (by decide)).2 (by decide)

/-- C9 counterexample: the claim that constructing a Grid from a non-square
list fails with a `ShapeError` is false of the source: `CodeMatrix` is a plain
frozen dataclass with no validation and no error path.  Constructing it from
the non-square `[[A, B]]` succeeds, stores the rows unchanged and reports
`size = 1`. -/
theorem claim_C9_counterexample :
    ¬ isSquareGrid nonSquareRows ∧
      (CodeMatrix.mk nonSquareRows).cells = nonSquareRows ∧
      (CodeMatrix.mk nonSquareRows).size = 1 :=
  ⟨by decide, rfl, rfl⟩

/-- C9 (amended): `CodeMatrix` construction performs no validation at all —
any list of rows, square or not, is accepted unchanged; `size` is always the
row count, and row/column iteration simply enumerates the stored data.  No
`ShapeError` (or any other construction-time failure) exists in the code. -/
theorem claim_C9_no_validation (cells : List (List CellValueType)) :
    (CodeMatrix.mk cells).cells = cells ∧
      (CodeMatrix.mk cells).size = cells.length ∧
      (∀ r, (CodeMatrix.mk cells).iterateRow r = (cells.getD r []).enum) ∧
      (∀ c, (CodeMatrix.mk cells).iterateCol c =
        (cells.map (fun row => row.getD c "")).enum) :=
  ⟨rfl, rfl, fun _ => rfl, fun _ => rfl⟩

/-- C10: with an empty sequence set and a (square) nonempty grid, every seeded
row-0 state is accepted immediately: under FIND_ALL_SOLUTIONS `solve` returns
exactly `size` single-step solutions, one per column of row 0 (rightmost
discovered first), and under FIND_FIRST_SOLUTION exactly the rightmost one.
The hypothesis that row 0 has `size` cells is the Grid data-model invariant. -/
theorem claim_C10_empty_sequences (spec : GameSpecification)
    (h : spec.upload_sequences = [])
    (hne : spec.code_matrix.cells ≠ [])
    (hrow : (spec.code_matrix.cells.getD 0 []).length = spec.code_matrix.size) :
    (solve spec SolutionStrategy.FIND_ALL_SOLUTIONS).length = spec.code_matrix.size ∧
    (∀ k, k < spec.code_matrix.size →
      (solve spec SolutionStrategy.FIND_ALL_SOLUTIONS).getD k defaultSolution =
        ⟨[⟨(spec.code_matrix.cells.getD 0 []).getD (spec.code_matrix.size - 1 - k) "",
            0, spec.code_matrix.size - 1 - k⟩]⟩) ∧
    solve spec SolutionStrategy.FIND_FIRST_SOLUTION =
      [⟨[⟨(spec.code_matrix.cells.getD 0 []).getD (spec.code_matrix.size - 1) "",
          0, spec.code_matrix.size - 1⟩]⟩] := by
  have hsz : 0 < spec.code_matrix.size := by
    simp only [CodeMatrix.size]
    exact List.length_pos.mpr hne
  have hintA := solveInternal_no_sequences_all h hrow
  have hAne : solveInternal spec SolutionStrategy.FIND_ALL_SOLUTIONS ≠ [] := by
    rw [hintA]
    simp only [ne_eq, List.reverse_eq_nil_iff, List.map_eq_nil_iff, List.enum_eq_nil]
    intro hc
    rw [hc] at hrow
    simp at hrow
    omega
  have hsolveA := solve_of_internal_ne_nil hAne
  rw [hsolveA, hintA]
  have hintF := solveInternal_no_sequences_first h hne hrow
  have hFne : solveInternal spec SolutionStrategy.FIND_FIRST_SOLUTION ≠ [] := by
    rw [hintF]
    simp
  have hsolveF := solve_of_internal_ne_nil hFne
  refine ⟨by simpa using hrow, ?_, ?_⟩
  · intro k hk
    rw [reverse_enum_map_getD (by omega) _ defaultSolution, hrow]
  · rw [hsolveF, hintF]
    have hstk : initialStack spec =
        (((spec.code_matrix.cells.getD 0 []).enum.map
          (fun p => seedItem spec p.1 p.2)).reverse) := rfl
    rw [hstk, headD_eq_getD,
      reverse_enum_map_getD (k := 0) (by omega) (fun p => seedItem spec p.1 p.2) _, hrow]
    rfl

/-- C10 witness: the 2×2 instance with no sequences yields the two single-step
row-0 solutions (column 1 first) and, under FIND_FIRST_SOLUTION, just the
column-1 one. -/
theorem claim_C10_empty_sequences_witness :
    (solve exSpecNoSequences SolutionStrategy.FIND_ALL_SOLUTIONS).length =
      exSpecNoSequences.code_matrix.size ∧
    (∀ k, k < exSpecNoSequences.code_matrix.size →
      (solve exSpecNoSequences SolutionStrategy.FIND_ALL_SOLUTIONS).getD k defaultSolution =
        ⟨[⟨(exSpecNoSequences.code_matrix.cells.getD 0 []).getD
            (exSpecNoSequences.code_matrix.size - 1 - k) "",
            0, exSpecNoSequences.code_matrix.size - 1 - k⟩]⟩) ∧
    solve exSpecNoSequences SolutionStrategy.FIND_FIRST_SOLUTION =
      [⟨[⟨(exSpecNoSequences.code_matrix.cells.getD 0 []).getD
          (exSpecNoSequences.code_matrix.size - 1) "",
          0, exSpecNoSequences.code_matrix.size - 1⟩]⟩] :=
  claim_C10_empty_sequences exSpecNoSequences rfl (by decide) (by decide)
